import Mathlib

/-!
Verification development for the `my-embed` map widget (src/embed.js).

The JavaScript source is shallowly embedded: pure functions become Lean
functions, the event-driven style-switch sequencer becomes a step function
folded over an explicit event list, and the style document / map handle
become explicit structures.  Numbers that are exact decimals in the source
are modelled as rationals; strings are Lean strings.
-/

namespace MyEmbed

/-! ## Style catalog and resolver (embed.js, constructor and resolveStyleUrl) -/

/-- The `geoloniaStyles` table from the constructor: style key to style URL. -/
def geoloniaStyles : List (String × String) :=
  [("geolonia/basic", "https://cdn.geolonia.com/style/geolonia/basic/ja.json"),
   ("geolonia/gsi", "https://cdn.geolonia.com/style/geolonia/gsi/ja.json"),
   ("geolonia/midnight", "https://cdn.geolonia.com/style/geolonia/midnight/ja.json"),
   ("geolonia/red-planet", "https://cdn.geolonia.com/style/geolonia/red-planet/ja.json"),
   ("geolonia/notebook", "https://cdn.geolonia.com/style/geolonia/notebook/ja.json")]

/-- Property lookup `this.geoloniaStyles[k]`, as a finite-map lookup. -/
def lookupStyle (k : String) : Option String :=
  (geoloniaStyles.find? (fun p => p.1 = k)).map (fun p => p.2)

/-- The `this.defaults` object from the constructor. -/
structure Defaults where
  lat : Rat
  lng : Rat
  zoom : Int
  style : String
deriving DecidableEq, Repr

def defaults : Defaults :=
  { lat := 35.681236, lng := 139.767125, zoom := 10, style := "geolonia/basic" }

/-- `s.startsWith(pre)` from JS, as a prefix test on the character list. -/
def jsStartsWith (s pre : String) : Bool :=
  pre.toList.isPrefixOf s.toList

/-- The hardcoded last-resort demo style URL (embed.js line 290). -/
def demoStyleUrl : String := "https://demotiles.maplibre.org/style.json"

/-- The URL used when falling through to the default style key
(embed.js lines 283-290): look the default key up in the catalog, and if
even that fails use the demo style. -/
def defaultStyleFallbackUrl : String :=
  match lookupStyle defaults.style with
  | some url => url
  | none => demoStyleUrl

/-- `resolveStyleUrl(style)` (embed.js lines 269-291).  The argument may be
`null` (modelled as `none`); JS truthiness of a string is `s ≠ ""`. -/
def resolveStyleUrl (style : Option String) : String :=
  match style with
  | some s =>
    match lookupStyle s with
    | some url => url
    | none =>
      if s ≠ "" ∧ (jsStartsWith s "http://" ∨ jsStartsWith s "https://") then s
      else defaultStyleFallbackUrl
  | none => defaultStyleFallbackUrl

/-- The URL the catalog assigns to the default style key. -/
def basicStyleUrl : String := "https://cdn.geolonia.com/style/geolonia/basic/ja.json"

/-- Member names every plain JS object literal also resolves through the
Object.prototype chain; each holds a function (for `__proto__`, an
object): truthy values, none of them strings. -/
def objectProtoMembers : List String :=
  ["constructor", "hasOwnProperty", "isPrototypeOf", "propertyIsEnumerable",
   "toLocaleString", "toString", "valueOf", "__proto__", "__defineGetter__",
   "__defineSetter__", "__lookupGetter__", "__lookupSetter__"]

/-- A JavaScript value that the property access `this.geoloniaStyles[k]`
can produce: an own entry's URL string, a member inherited from
Object.prototype, or undefined. -/
inductive JsValue where
  | str : String → JsValue
  | protoMember : String → JsValue
  | undef : JsValue
deriving DecidableEq, Repr

/-- Property access `this.geoloniaStyles[k]` with JavaScript semantics:
an own key yields its URL string; otherwise a name inherited from
Object.prototype yields that member; otherwise undefined. -/
def getStyleProp (k : String) : JsValue :=
  match lookupStyle k with
  | some url => JsValue.str url
  | none =>
    if k ∈ objectProtoMembers then JsValue.protoMember k else JsValue.undef

/-- JS truthiness of such a value. -/
def jsTruthy : JsValue → Bool
  | JsValue.str s => s ≠ ""
  | JsValue.protoMember _ => true
  | JsValue.undef => false

/-- Whether the value is a string at all. -/
def JsValue.isStr : JsValue → Bool
  | JsValue.str _ => true
  | _ => false

/-- `resolveStyleUrl(style)` (embed.js lines 269-291) with full JavaScript
property-access semantics: the first branch tests the truthiness of
`this.geoloniaStyles[style]`, which can also hit a truthy member inherited
from Object.prototype.  A `null` argument reads the property "null"
(undefined, hence falsy) and fails the `style && ...` guard, so it falls
through to the default branch. -/
def resolveStyleProp : Option String → JsValue
  | some s =>
    if jsTruthy (getStyleProp s) then getStyleProp s
    else if s ≠ "" ∧ (jsStartsWith s "http://" ∨ jsStartsWith s "https://") then
      JsValue.str s
    else if jsTruthy (getStyleProp defaults.style) then
      getStyleProp defaults.style
    else JsValue.str demoStyleUrl
  | none =>
    if jsTruthy (getStyleProp "null") then getStyleProp "null"
    else if jsTruthy (getStyleProp defaults.style) then
      getStyleProp defaults.style
    else JsValue.str demoStyleUrl

/-- C5 (code bug, failing input "toString"): the requested string
"toString" is not a key of the style catalog and not an absolute http(s)
URL, so the claimed cascade requires the default style key's URL to be
returned; but JavaScript property access hits the truthy
Object.prototype.toString member, which the first branch returns, handing
the rendering engine an inherited function instead of the default style
URL. -/
theorem resolveStyleProp_toString_breaks_cascade :
    lookupStyle "toString" = none ∧
    jsStartsWith "toString" "http://" = false ∧
    jsStartsWith "toString" "https://" = false ∧
    resolveStyleProp (some "toString") = JsValue.protoMember "toString" ∧
    resolveStyleProp (some "toString") ≠ JsValue.str basicStyleUrl := by
  refine ⟨by decide, by decide, by decide, by decide, by decide⟩

/-- C6 (code bug, failing input "constructor"): resolution is not total
into URL strings — resolving the unknown keys "constructor", "toString"
or "__proto__" returns the truthy member inherited from Object.prototype,
a non-string, rather than the default style's URL the claim requires for
arbitrary unknown keys. -/
theorem resolveStyleProp_not_total :
    (resolveStyleProp (some "constructor")).isStr = false ∧
    resolveStyleProp (some "constructor") ≠ JsValue.str basicStyleUrl ∧
    (resolveStyleProp (some "toString")).isStr = false ∧
    (resolveStyleProp (some "__proto__")).isStr = false := by
  refine ⟨by decide, by decide, by decide, by decide⟩

/-! ## Attribute parsing and configuration (embed.js, getConfigFromAttributes) -/

/-- Value of a run of decimal digits. -/
def digitsVal (ds : List Char) : Nat :=
  ds.foldl (fun n c => n * 10 + (c.toNat - 48)) 0

/-- Leading whitespace accepted by the JS numeric parsers. -/
def isJsSpace (c : Char) : Bool :=
  c = ' ' ∨ c = '\t' ∨ c = '\n' ∨ c = '\r'

/-- Optional sign at the start of a JS numeric literal. -/
def splitSign : List Char → Rat × List Char
  | '-' :: rest => (-1, rest)
  | '+' :: rest => (1, rest)
  | cs => (1, cs)

/-- `parseFloat(s)` on a decimal literal: skip whitespace, optional sign,
digits, optional fractional part.  Returns `none` exactly when JS would
return `NaN` (no digit in the numeric prefix).  The attribute may be absent
(`getAttribute` returns `null`, which `parseFloat` turns into `NaN`). -/
def jsParseFloat (attr : Option String) : Option Rat :=
  match attr with
  | none => none
  | some s =>
    let cs := s.toList.dropWhile isJsSpace
    let sc := splitSign cs
    let intDs := sc.2.takeWhile Char.isDigit
    let rest := sc.2.dropWhile Char.isDigit
    let fracDs :=
      match rest with
      | '.' :: tl => tl.takeWhile Char.isDigit
      | _ => []
    if intDs = [] ∧ fracDs = [] then none
    else
      some (sc.1 * ((digitsVal intDs : Rat) +
        (digitsVal fracDs : Rat) / ((10 : Rat) ^ fracDs.length)))

/-- `parseInt(s)` on a decimal literal: skip whitespace, optional sign,
leading digits; `none` exactly when JS would return `NaN`. -/
def jsParseInt (attr : Option String) : Option Int :=
  match attr with
  | none => none
  | some s =>
    let cs := s.toList.dropWhile isJsSpace
    let sc := splitSign cs
    let ds := sc.2.takeWhile Char.isDigit
    if ds = [] then none
    else some ((if sc.1 = -1 then (-1 : Int) else 1) * (digitsVal ds : Int))

/-- The observed `data-` attributes of the element, each possibly absent. -/
structure Attrs where
  lat : Option String
  lng : Option String
  zoom : Option String
  styleJson : Option String
deriving DecidableEq, Repr

/-- The configuration object built by `getConfigFromAttributes`. -/
structure MapConfig where
  lat : Rat
  lng : Rat
  zoom : Int
  style : String
deriving DecidableEq, Repr

/-- `getConfigFromAttributes()` (embed.js lines 249-266): each numeric
attribute that fails parsing (`isNaN`) falls back to the default, and the
style attribute (or, when falsy, the default style key) is resolved. -/
def getConfigFromAttributes (a : Attrs) : MapConfig :=
  let latv := jsParseFloat a.lat
  let lngv := jsParseFloat a.lng
  let zoomv := jsParseInt a.zoom
  let stylev : Option String :=
    match a.styleJson with
    | some s => if s = "" then some defaults.style else some s
    | none => some defaults.style
  { lat := latv.getD defaults.lat,
    lng := lngv.getD defaults.lng,
    zoom := zoomv.getD defaults.zoom,
    style := resolveStyleUrl stylev }

/-- C9: a numeric attribute that fails numeric parsing is silently replaced
by its built-in default, with no error; in particular lat "35.0",
lng "139.0", zoom "abc" yield zoom 10 while lat and lng keep their parsed
values. -/
theorem config_bad_numeric_attr_defaults :
    (∀ a : Attrs, jsParseInt a.zoom = none →
      (getConfigFromAttributes a).zoom = defaults.zoom) ∧
    (∀ a : Attrs, jsParseFloat a.lat = none →
      (getConfigFromAttributes a).lat = defaults.lat) ∧
    (∀ a : Attrs, jsParseFloat a.lng = none →
      (getConfigFromAttributes a).lng = defaults.lng) ∧
    getConfigFromAttributes
        { lat := some "35.0", lng := some "139.0", zoom := some "abc",
          styleJson := none } =
      { lat := 35, lng := 139, zoom := 10, style := basicStyleUrl } := by
  refine ⟨?_, ?_, ?_, ?_⟩
  · intro a h; simp [getConfigFromAttributes, h]
  · intro a h; simp [getConfigFromAttributes, h]
  · intro a h; simp [getConfigFromAttributes, h]
  · have h1 : jsParseFloat (some "35.0") =
        some ((1 : Rat) * ((((35 : Nat) : Rat)) +
          (((0 : Nat) : Rat)) / ((10 : Rat) ^ (1 : Nat)))) := rfl
    have h2 : jsParseFloat (some "139.0") =
        some ((1 : Rat) * ((((139 : Nat) : Rat)) +
          (((0 : Nat) : Rat)) / ((10 : Rat) ^ (1 : Nat)))) := rfl
    have h1v : jsParseFloat (some "35.0") = some 35 := by rw [h1]; norm_num
    have h2v : jsParseFloat (some "139.0") = some 139 := by rw [h2]; norm_num
    have h3 : jsParseInt (some "abc") = none := by decide
    have h4 : resolveStyleUrl (some "geolonia/basic") = basicStyleUrl := by decide
    simp [getConfigFromAttributes, h1v, h2v, h3, h4, defaults]

/-- Witness for C9: the parse failure hypothesis holds at the concrete
attribute set of the claim, and the defaulting conclusion follows. -/
theorem config_bad_numeric_attr_defaults_witness :
    jsParseInt (some "abc") = none ∧
    (getConfigFromAttributes
        { lat := some "35.0", lng := some "139.0", zoom := some "abc",
          styleJson := none }).zoom = defaults.zoom :=
  ⟨by decide,
   config_bad_numeric_attr_defaults.1
     { lat := some "35.0", lng := some "139.0", zoom := some "abc",
       styleJson := none } (by decide)⟩

/-! ## String scanning: `includes` and global `replace` on a literal
pattern, as used by `applyApiKeyToSources` -/

/-- Does the pattern occur as a contiguous run in the list? -/
def containsPat (pat : List Char) : List Char → Bool
  | [] => pat.isEmpty
  | c :: rest => pat.isPrefixOf (c :: rest) || containsPat pat rest

/-- `s.includes(pat)` from JS. -/
def jsIncludes (s pat : String) : Bool :=
  containsPat pat.toList s.toList

lemma containsPat_iff_occurs (pat s : List Char) :
    containsPat pat s = true ↔ pat <:+: s := by
  induction s with
  | nil => simp [containsPat, List.isEmpty_iff, List.infix_nil]
  | cons c rest ih =>
    simp [containsPat, ih, List.infix_cons_iff, List.isPrefixOf_iff_prefix]

/-- Greedy left-to-right split of a list on a literal pattern: the pieces
between non-overlapping occurrences of `pat`, scanned from the left.  This
is the occurrence structure a global regex replace on a literal pattern
walks through. -/
def splitOnPat (pat : List Char) : List Char → List (List Char)
  | [] => [[]]
  | c :: rest =>
    if hp : pat ≠ [] ∧ pat.isPrefixOf (c :: rest) then
      [] :: splitOnPat pat ((c :: rest).drop pat.length)
    else
      match splitOnPat pat rest with
      | [] => [[c]]
      | p :: ps => (c :: p) :: ps
termination_by s => s.length
decreasing_by
  · have hlen : 0 < pat.length := List.length_pos.mpr hp.1
    simp only [List.length_drop, List.length_cons]
    omega
  · simp only [List.length_cons]
    omega

/-- Join pieces with a separator list. -/
def joinWithSep (sep : List Char) : List (List Char) → List Char
  | [] => []
  | [p] => p
  | p :: ps => p ++ sep ++ joinWithSep sep ps

/-- GetSubstitution for a string replacement against a regex with no
capture groups (ECMA-262): a dollar sign introduces `$$` (a literal
dollar), `$&` (the matched substring), a dollar-backquote (the text
before the match) and a dollar-quote (the text after the match); any
other dollar sequence, including `$n` with no such group and a trailing
dollar, is literal text. -/
def expandRep (matched before after : List Char) : List Char → List Char
  | [] => []
  | '$' :: c :: tl =>
    if c = '$' then '$' :: expandRep matched before after tl
    else if c = '&' then matched ++ expandRep matched before after tl
    else if c = Char.ofNat 96 then before ++ expandRep matched before after tl
    else if c = '\'' then after ++ expandRep matched before after tl
    else '$' :: expandRep matched before after (c :: tl)
  | c :: tl => c :: expandRep matched before after tl

/-- A replacement string free of the four dollar patterns that
GetSubstitution expands: such a string is always inserted literally. -/
def dollarClean : List Char → Bool
  | [] => true
  | '$' :: c :: tl =>
    if c = '$' ∨ c = '&' ∨ c = Char.ofNat 96 ∨ c = '\'' then false
    else dollarClean (c :: tl)
  | _ :: tl => dollarClean tl

/-- The left-to-right scan of `s.replace(/pat/g, rep)`: at each match of
the literal pattern, the replacement is expanded with this match's
context (`pre` is the text already scanned, before the match) and the
scan resumes after the match.  The fuel is at least the length of the
remaining text, so the base case is never hit from the wrapper. -/
def goReplaceF (pat rep : List Char) : Nat → List Char → List Char → List Char
  | _, _, [] => []
  | 0, _, s => s
  | fuel + 1, pre, c :: rest =>
    if pat ≠ [] ∧ pat.isPrefixOf (c :: rest) then
      expandRep pat pre ((c :: rest).drop pat.length) rep ++
        goReplaceF pat rep fuel (pre ++ pat) ((c :: rest).drop pat.length)
    else c :: goReplaceF pat rep fuel (pre ++ [c]) rest

/-- `s.replace(/pat/g, rep)` for a literal pattern `pat`: every
greedily-scanned occurrence of `pat` is replaced by the expansion of
`rep` (JS dollar patterns in the replacement string are honoured). -/
def jsReplaceAll (s pat rep : String) : String :=
  ⟨goReplaceF pat.toList rep.toList s.toList.length [] s.toList⟩

lemma splitOnPat_ne_nil (pat s : List Char) : splitOnPat pat s ≠ [] := by
  cases s with
  | nil => simp [splitOnPat]
  | cons c rest =>
    rw [splitOnPat]
    split
    · simp
    · split <;> simp

lemma splitOnPat_head_starts (pat : List Char) :
    ∀ s p ps, splitOnPat pat s = p :: ps → p <+: s := by
  intro s
  induction s using splitOnPat.induct pat with
  | case1 =>
    intro p ps h
    simp [splitOnPat] at h
    simp [h.1]
  | case2 c rest h ih =>
    intro p ps hs
    rw [splitOnPat, dif_pos h] at hs
    have : p = [] := by
      injection hs with h1 _
      exact h1.symm
    simp [this]
  | case3 c rest h hnil ih =>
    exact absurd hnil (splitOnPat_ne_nil pat rest)
  | case4 c rest h p0 ps0 hrest ih =>
    intro p ps hs
    rw [splitOnPat, dif_neg h, hrest] at hs
    injection hs with h1 h2
    subst h1
    have hp0 : p0 <+: rest := ih p0 ps0 hrest
    exact (List.cons_prefix_cons).mpr ⟨rfl, hp0⟩

lemma splitOnPat_join (pat : List Char) :
    ∀ s : List Char, joinWithSep pat (splitOnPat pat s) = s := by
  intro s
  induction s using splitOnPat.induct pat with
  | case1 => simp [splitOnPat, joinWithSep]
  | case2 c rest h ih =>
    rw [splitOnPat, dif_pos h]
    cases hd : splitOnPat pat ((c :: rest).drop pat.length) with
    | nil => exact absurd hd (splitOnPat_ne_nil pat _)
    | cons p0 ps0 =>
      rw [hd] at ih
      show joinWithSep pat ([] :: p0 :: ps0) = c :: rest
      rw [show joinWithSep pat ([] :: p0 :: ps0) =
        [] ++ pat ++ joinWithSep pat (p0 :: ps0) from rfl, ih]
      obtain ⟨t, ht⟩ := (List.isPrefixOf_iff_prefix.mp h.2)
      rw [← ht, List.nil_append, List.drop_left]
  | case3 c rest h hnil ih =>
    exact absurd hnil (splitOnPat_ne_nil pat rest)
  | case4 c rest h p0 ps0 hrest ih =>
    rw [splitOnPat, dif_neg h, hrest]
    rw [hrest] at ih
    cases ps0 with
    | nil =>
      show c :: p0 = c :: rest
      simp [joinWithSep] at ih
      rw [ih]
    | cons q qs =>
      show (c :: p0) ++ pat ++ joinWithSep pat (q :: qs) = c :: rest
      rw [show joinWithSep pat (p0 :: q :: qs) =
        p0 ++ pat ++ joinWithSep pat (q :: qs) from rfl] at ih
      rw [← ih]
      simp

lemma splitOnPat_parts_clean (pat : List Char) (hpat : pat ≠ []) :
    ∀ s part, part ∈ splitOnPat pat s → ¬ pat <:+: part := by
  intro s
  induction s using splitOnPat.induct pat with
  | case1 =>
    intro part hmem hinf
    simp [splitOnPat] at hmem
    subst hmem
    exact hpat (List.infix_nil.mp hinf)
  | case2 c rest h ih =>
    intro part hmem hinf
    rw [splitOnPat, dif_pos h] at hmem
    rcases List.mem_cons.mp hmem with h1 | h1
    · subst h1
      exact hpat (List.infix_nil.mp hinf)
    · exact ih part h1 hinf
  | case3 c rest h hnil ih =>
    exact absurd hnil (splitOnPat_ne_nil pat rest)
  | case4 c rest h p0 ps0 hrest ih =>
    intro part hmem hinf
    rw [splitOnPat, dif_neg h, hrest] at hmem
    have hnp : ¬ pat <+: c :: rest := by
      intro hp
      exact h ⟨hpat, List.isPrefixOf_iff_prefix.mpr hp⟩
    rcases List.mem_cons.mp hmem with h1 | h1
    · subst h1
      rcases List.infix_cons_iff.mp hinf with h2 | h2
      · have hp0 : p0 <+: rest := splitOnPat_head_starts pat rest p0 ps0 hrest
        have : pat <+: c :: rest :=
          h2.trans (List.cons_prefix_cons.mpr ⟨rfl, hp0⟩)
        exact hnp this
      · exact ih p0 (by rw [hrest]; exact List.mem_cons_self p0 ps0) h2
    · exact ih part (by rw [hrest]; exact List.mem_cons_of_mem p0 h1) hinf

lemma splitOnPat_length_of_occurs (pat : List Char) (hpat : pat ≠ []) :
    ∀ s, pat <:+: s → 2 ≤ (splitOnPat pat s).length := by
  intro s
  induction s using splitOnPat.induct pat with
  | case1 =>
    intro hinf
    exact absurd (List.infix_nil.mp hinf) hpat
  | case2 c rest h ih =>
    intro _
    rw [splitOnPat, dif_pos h]
    have hne := splitOnPat_ne_nil pat ((c :: rest).drop pat.length)
    have hlen : 1 ≤ (splitOnPat pat ((c :: rest).drop pat.length)).length := by
      cases hd : splitOnPat pat ((c :: rest).drop pat.length) with
      | nil => exact absurd hd hne
      | cons _ _ => simp
    simp only [List.length_cons]
    omega
  | case3 c rest h hnil ih =>
    exact absurd hnil (splitOnPat_ne_nil pat rest)
  | case4 c rest h p0 ps0 hrest ih =>
    intro hinf
    rw [splitOnPat, dif_neg h, hrest]
    have hnp : ¬ pat <+: c :: rest := by
      intro hp
      exact h ⟨hpat, List.isPrefixOf_iff_prefix.mpr hp⟩
    have hrest' : pat <:+: rest := by
      rcases List.infix_cons_iff.mp hinf with h2 | h2
      · exact absurd h2 hnp
      · exact h2
    have h2 := ih hrest'
    rw [hrest] at h2
    simpa using h2

lemma joinWithSep_cons_head (sep : List Char) (c : Char) (p : List Char)
    (ps : List (List Char)) :
    joinWithSep sep ((c :: p) :: ps) = c :: joinWithSep sep (p :: ps) := by
  cases ps <;> simp [joinWithSep]

lemma expandRep_eq_self (matched before after : List Char) :
    ∀ rep, dollarClean rep = true →
      expandRep matched before after rep = rep := by
  intro rep
  induction rep using dollarClean.induct with
  | case1 => intro _; rfl
  | case2 c tl hc =>
    intro h
    rw [dollarClean, if_pos hc] at h
    cases h
  | case3 c tl hc ih =>
    intro h
    rw [dollarClean, if_neg hc] at h
    push_neg at hc
    obtain ⟨h1, h2, h3, h4⟩ := hc
    rw [expandRep, if_neg h1, if_neg h2, if_neg h3, if_neg h4, ih h]
  | case4 c tl hshape ih =>
    intro h
    cases tl with
    | nil =>
      rw [expandRep]
      · rfl
      · exact fun c1 tl1 _ habs => List.noConfusion habs
    | cons d tl2 =>
      by_cases hcd : c = '$'
      · exact (hshape d tl2 hcd rfl).elim
      · have htl : dollarClean (d :: tl2) = true := by
          rw [dollarClean] at h
          · exact h
          · exact fun c1 tl1 hc _ => hcd hc
        rw [expandRep]
        · rw [ih htl]
        · exact fun c1 tl1 hc _ => hcd hc

lemma goReplaceF_join (pat rep : List Char) (hrep : dollarClean rep = true) :
    ∀ (fuel : Nat) (s pre : List Char), s.length ≤ fuel →
      goReplaceF pat rep fuel pre s = joinWithSep rep (splitOnPat pat s) := by
  intro fuel
  induction fuel with
  | zero =>
    intro s pre hle
    have hs : s = [] := List.length_eq_zero.mp (Nat.le_zero.mp hle)
    subst hs
    simp [goReplaceF, splitOnPat, joinWithSep]
  | succ fuel ih =>
    intro s pre hle
    cases s with
    | nil => simp [goReplaceF, splitOnPat, joinWithSep]
    | cons c rest =>
      rw [goReplaceF, splitOnPat]
      by_cases hp : pat ≠ [] ∧ pat.isPrefixOf (c :: rest) = true
      · rw [if_pos hp, dif_pos hp]
        have hplen : 0 < pat.length := List.length_pos.mpr hp.1
        have hlen2 : ((c :: rest).drop pat.length).length ≤ fuel := by
          simp only [List.length_drop, List.length_cons]
          simp only [List.length_cons] at hle
          omega
        rw [expandRep_eq_self pat pre ((c :: rest).drop pat.length) rep hrep]
        rw [ih ((c :: rest).drop pat.length) (pre ++ pat) hlen2]
        cases hd : splitOnPat pat ((c :: rest).drop pat.length) with
        | nil => exact absurd hd (splitOnPat_ne_nil pat _)
        | cons p0 ps0 => simp [joinWithSep]
      · rw [if_neg hp, dif_neg hp]
        have hlen2 : rest.length ≤ fuel := by
          simp only [List.length_cons] at hle
          omega
        rw [ih rest (pre ++ [c]) hlen2]
        cases hrest2 : splitOnPat pat rest with
        | nil => exact absurd hrest2 (splitOnPat_ne_nil pat rest)
        | cons p0 ps0 => exact (joinWithSep_cons_head rep c p0 ps0).symm

lemma jsReplaceAll_clean (s pat rep : String)
    (hrep : dollarClean rep.toList = true) :
    (jsReplaceAll s pat rep).toList =
      joinWithSep rep.toList (splitOnPat pat.toList s.toList) := by
  show goReplaceF pat.toList rep.toList s.toList.length [] s.toList = _
  exact goReplaceF_join pat.toList rep.toList hrep s.toList.length s.toList []
    (le_refl _)

/-! ## API-key injection (embed.js, applyApiKeyToSources) -/

/-- The literal placeholder token scanned for in source URLs. -/
def placeholderToken : String := "YOUR-API-KEY"

/-- A named source of the style document: a possibly absent `url`, a
possibly absent `tiles` array, and all its remaining fields. -/
structure Source where
  url : Option String
  tiles : Option (List String)
  otherFields : List (String × String)
deriving DecidableEq, Repr

/-- A style document, as far as key injection reads it: its named sources. -/
structure StyleDoc where
  sources : List (String × Source)
deriving DecidableEq, Repr

/-- Camera state: center (lng, lat), zoom, bearing, pitch. -/
structure Camera where
  lng : Rat
  lat : Rat
  zoom : Rat
  bearing : Rat
  pitch : Rat
deriving DecidableEq, Repr

/-- The map handle as key injection observes and mutates it: the active
style document (possibly absent), the camera, and how many times
`map.setStyle` has been issued. -/
structure MapState where
  styleDoc : Option StyleDoc
  camera : Camera
  setStyleCount : Nat
deriving DecidableEq, Repr

/-- Rewrite of the `url` field of one source (embed.js lines 626-629):
returns the new field and whether it changed. -/
def rewriteUrl (key : String) : Option String → Option String × Bool
  | some u =>
    if jsIncludes u placeholderToken then
      (some (jsReplaceAll u placeholderToken key), true)
    else (some u, false)
  | none => (none, false)

/-- Rewrite of one `tiles` entry (embed.js lines 632-641). -/
def rewriteTile (key : String) (t : String) : String × Bool :=
  if jsIncludes t placeholderToken then
    (jsReplaceAll t placeholderToken key, true)
  else (t, false)

/-- Rewrite of the `tiles` field of one source (embed.js lines 631-642). -/
def rewriteTiles (key : String) : Option (List String) → Option (List String) × Bool
  | some ts =>
    (some ((ts.map (rewriteTile key)).map Prod.fst),
     (ts.map (rewriteTile key)).any Prod.snd)
  | none => (none, false)

/-- The per-source loop body of `applyApiKeyToSources` (embed.js lines
625-643): rewrite the `url` field and each `tiles` entry containing the
placeholder, and report whether anything changed. -/
def updateSource (key : String) (src : Source) : Source × Bool :=
  ({ src with
      url := (rewriteUrl key src.url).1,
      tiles := (rewriteTiles key src.tiles).1 },
   (rewriteUrl key src.url).2 || (rewriteTiles key src.tiles).2)

/-- `applyApiKeyToSources()` (embed.js lines 614-667).  JS truthiness of
the stored key makes both `null` and `""` bail out immediately; absence of
a map or of a style document also bails out.  When no source needed a
rewrite the map is returned untouched; otherwise the rewritten document is
installed with one further `setStyle` call and the camera reapplied at its
captured (hence unchanged) values. -/
def applyApiKeyToSources (apiKey : Option String) (m : Option MapState) :
    Option MapState :=
  match apiKey, m with
  | some key, some st =>
    if key = "" then some st
    else
      match st.styleDoc with
      | none => some st
      | some doc =>
        if (doc.sources.map (fun p => (p.1, updateSource key p.2))).any
            (fun p => p.2.2) then
          some { st with
            styleDoc := some ⟨(doc.sources.map
              (fun p => (p.1, updateSource key p.2))).map
                (fun p => (p.1, p.2.1))⟩,
            setStyleCount := st.setStyleCount + 1 }
        else some st
  | _, _ => m

/-- The relation between an input string field and its rewritten form: if
the placeholder occurs, the output is the input with the supplied key
substituted for every greedily-scanned occurrence, witnessed by a
decomposition of the input into at least two placeholder-free pieces
joined by the placeholder, with the output the same pieces joined by the
key; otherwise the field is unchanged. -/
def replacedAll (key u v : String) : Prop :=
  if jsIncludes u placeholderToken = true then
    ∃ parts : List (List Char),
      2 ≤ parts.length ∧
      u.toList = joinWithSep placeholderToken.toList parts ∧
      (∀ part ∈ parts, ¬ placeholderToken.toList <:+: part) ∧
      v.toList = joinWithSep key.toList parts
  else v = u

/-- Rewrite relation on the optional `url` field. -/
def urlRewrite (key : String) : Option String → Option String → Prop
  | some u, some v => replacedAll key u v
  | none, none => True
  | _, _ => False

/-- Rewrite relation on the optional `tiles` field, entrywise. -/
def tilesRewrite (key : String) :
    Option (List String) → Option (List String) → Prop
  | some ts, some tsv => List.Forall₂ (replacedAll key) ts tsv
  | none, none => True
  | _, _ => False

lemma replacedAll_self (key u : String)
    (h : jsIncludes u placeholderToken = false) : replacedAll key u u := by
  simp [replacedAll, h]

lemma replacedAll_replace (key u : String)
    (hkc : dollarClean key.toList = true)
    (h : jsIncludes u placeholderToken = true) :
    replacedAll key u (jsReplaceAll u placeholderToken key) := by
  have hpat : placeholderToken.toList ≠ [] := by decide
  have hinf : placeholderToken.toList <:+: u.toList :=
    (containsPat_iff_occurs _ _).mp h
  rw [replacedAll, if_pos h]
  refine ⟨splitOnPat placeholderToken.toList u.toList,
    splitOnPat_length_of_occurs _ hpat _ hinf,
    (splitOnPat_join _ _).symm,
    fun part hmem => splitOnPat_parts_clean _ hpat _ part hmem,
    jsReplaceAll_clean u placeholderToken key hkc⟩

lemma rewriteTile_replacedAll (key t : String)
    (hkc : dollarClean key.toList = true) :
    replacedAll key t (rewriteTile key t).1 := by
  by_cases hinc : jsIncludes t placeholderToken = true
  · rw [rewriteTile, if_pos hinc]
    exact replacedAll_replace key t hkc hinc
  · have hinc2 : jsIncludes t placeholderToken = false := by simpa using hinc
    rw [rewriteTile, if_neg (by simp [hinc2])]
    exact replacedAll_self key t hinc2

lemma updateSource_spec (key : String) (src : Source)
    (hkc : dollarClean key.toList = true) :
    (updateSource key src).1.otherFields = src.otherFields ∧
    urlRewrite key src.url (updateSource key src).1.url ∧
    tilesRewrite key src.tiles (updateSource key src).1.tiles := by
  refine ⟨rfl, ?_, ?_⟩
  · show urlRewrite key src.url (rewriteUrl key src.url).1
    cases hu : src.url with
    | none => simp [rewriteUrl, urlRewrite]
    | some u =>
      by_cases hinc : jsIncludes u placeholderToken = true
      · rw [rewriteUrl, if_pos hinc]
        exact replacedAll_replace key u hkc hinc
      · have hinc2 : jsIncludes u placeholderToken = false := by simpa using hinc
        rw [rewriteUrl, if_neg (by simp [hinc2])]
        exact replacedAll_self key u hinc2
  · show tilesRewrite key src.tiles (rewriteTiles key src.tiles).1
    cases ht : src.tiles with
    | none => simp [rewriteTiles, tilesRewrite]
    | some ts =>
      rw [rewriteTiles]
      show List.Forall₂ (replacedAll key)
        ts ((ts.map (rewriteTile key)).map Prod.fst)
      rw [List.map_map]
      clear ht
      induction ts with
      | nil => exact List.Forall₂.nil
      | cons t ts ih =>
        exact List.Forall₂.cons (rewriteTile_replacedAll key t hkc) ih

/-- A source is dirty when its url or one of its tiles entries carries the
placeholder. -/
def sourceDirty (src : Source) : Prop :=
  (∃ u, src.url = some u ∧ jsIncludes u placeholderToken = true) ∨
  (∃ ts, src.tiles = some ts ∧ ∃ t ∈ ts, jsIncludes t placeholderToken = true)

lemma updateSource_dirty (key : String) (src : Source)
    (h : sourceDirty src) : (updateSource key src).2 = true := by
  rcases h with ⟨u, hu, hinc⟩ | ⟨ts, hts, t, hmem, hinc⟩
  · show ((rewriteUrl key src.url).2 || (rewriteTiles key src.tiles).2) = true
    rw [hu, rewriteUrl, if_pos hinc]
    rfl
  · show ((rewriteUrl key src.url).2 || (rewriteTiles key src.tiles).2) = true
    rw [Bool.or_eq_true]
    right
    rw [hts, rewriteTiles]
    show (ts.map (rewriteTile key)).any Prod.snd = true
    rw [List.any_eq_true]
    refine ⟨rewriteTile key t, List.mem_map_of_mem _ hmem, ?_⟩
    rw [rewriteTile, if_pos hinc]

lemma updateSource_clean (key : String) (src : Source)
    (h : ¬ sourceDirty src) : (updateSource key src).2 = false := by
  rw [sourceDirty] at h
  push_neg at h
  obtain ⟨h1, h2⟩ := h
  show ((rewriteUrl key src.url).2 || (rewriteTiles key src.tiles).2) = false
  rw [Bool.or_eq_false_iff]
  constructor
  · cases hu : src.url with
    | none => rfl
    | some u =>
      have hclean := h1 u hu
      rw [rewriteUrl, if_neg (by simp [hclean])]
  · cases ht : src.tiles with
    | none => rfl
    | some ts =>
      rw [rewriteTiles]
      show (ts.map (rewriteTile key)).any Prod.snd = false
      rw [List.any_eq_false]
      intro x hx
      rw [List.mem_map] at hx
      obtain ⟨t, hmem, rfl⟩ := hx
      have hclean := h2 ts ht t hmem
      rw [rewriteTile, if_neg (by simp [hclean])]
      simp

/-- C10: when the stored API key is absent (`null`) or empty, key injection
returns immediately: no map update, no style-document mutation, regardless
of the map state and of whether sources carry the placeholder. -/
theorem applyApiKey_absent_key_no_update :
    (∀ m : Option MapState, applyApiKeyToSources none m = m) ∧
    (∀ m : Option MapState, applyApiKeyToSources (some "") m = m) := by
  constructor
  · intro m
    cases m <;> rfl
  · intro m
    cases m with
    | none => rfl
    | some st => simp [applyApiKeyToSources]

/-- C8: when no source's url and no tiles entry contains the placeholder,
key injection performs zero map updates and leaves the active style
document untouched (the map state is returned exactly as it was). -/
theorem applyApiKey_no_placeholder_no_update (apiKey : Option String)
    (st : MapState)
    (hclean : ∀ doc : StyleDoc, st.styleDoc = some doc →
      ∀ p ∈ doc.sources, ¬ sourceDirty p.2) :
    applyApiKeyToSources apiKey (some st) = some st := by
  cases apiKey with
  | none => rfl
  | some key =>
    by_cases hk : key = ""
    · simp [applyApiKeyToSources, hk]
    · cases hd : st.styleDoc with
      | none => simp [applyApiKeyToSources, hk, hd]
      | some doc =>
        have hany : ((doc.sources.map
            (fun p => (p.1, updateSource key p.2))).any (fun p => p.2.2)) = false := by
          rw [List.any_eq_false]
          intro x hx
          rw [List.mem_map] at hx
          obtain ⟨p, hmem, rfl⟩ := hx
          simp [updateSource_clean key p.2 (hclean doc hd p hmem)]
        simp [applyApiKeyToSources, hk, hd, hany]

/-- Witness for C8: a concrete clean style document is returned untouched. -/
theorem applyApiKey_no_placeholder_no_update_witness :
    (∀ p ∈ (⟨[("osm", ⟨some "https://tiles.example/meta.json",
        some ["https://tiles.example/0/0/0.pbf"], [("type", "vector")]⟩)]⟩ :
        StyleDoc).sources, ¬ sourceDirty p.2) ∧
    applyApiKeyToSources (some "secret-key")
        (some ⟨some ⟨[("osm", ⟨some "https://tiles.example/meta.json",
          some ["https://tiles.example/0/0/0.pbf"], [("type", "vector")]⟩)]⟩,
          ⟨139, 35, 10, 0, 0⟩, 3⟩) =
      some ⟨some ⟨[("osm", ⟨some "https://tiles.example/meta.json",
          some ["https://tiles.example/0/0/0.pbf"], [("type", "vector")]⟩)]⟩,
          ⟨139, 35, 10, 0, 0⟩, 3⟩ := by
  have hc : ∀ p ∈ (⟨[("osm", ⟨some "https://tiles.example/meta.json",
      some ["https://tiles.example/0/0/0.pbf"], [("type", "vector")]⟩)]⟩ :
      StyleDoc).sources, ¬ sourceDirty p.2 := by
    intro p hmem
    have hp : p = ("osm", ⟨some "https://tiles.example/meta.json",
        some ["https://tiles.example/0/0/0.pbf"], [("type", "vector")]⟩) := by
      simpa using hmem
    subst hp
    rintro (⟨u, hu, hinc⟩ | ⟨ts, hts, t, hmem2, hinc⟩)
    · injection hu with hu
      subst hu
      exact absurd hinc (by decide)
    · injection hts with hts
      subst hts
      have ht : t = "https://tiles.example/0/0/0.pbf" := by simpa using hmem2
      subst ht
      exact absurd hinc (by decide)
  exact ⟨hc, applyApiKey_no_placeholder_no_update (some "secret-key") _
    (fun doc hdoc => by
      injection hdoc with hdoc
      subst hdoc
      exact hc)⟩

lemma updateSource_forall2 (key : String)
    (hkc : dollarClean key.toList = true) (l : List (String × Source)) :
    List.Forall₂ (fun p q : String × Source =>
      q.1 = p.1 ∧
      q.2.otherFields = p.2.otherFields ∧
      urlRewrite key p.2.url q.2.url ∧
      tilesRewrite key p.2.tiles q.2.tiles) l
      (l.map (fun p => (p.1, (updateSource key p.2).1))) := by
  induction l with
  | nil => exact List.Forall₂.nil
  | cons p l ih =>
    refine List.Forall₂.cons ⟨rfl, ?_, ?_, ?_⟩ ih
    · exact (updateSource_spec key p.2 hkc).1
    · exact (updateSource_spec key p.2 hkc).2.1
    · exact (updateSource_spec key p.2 hkc).2.2

/-- C7, amended: when some named source carries the placeholder, the
stored key is non-empty, and the key contains none of the dollar
replacement patterns that JS `String.replace` expands (dollar-dollar,
dollar-ampersand, dollar-backquote, dollar-quote), key injection issues
exactly one map update, installing a document in which, for every source,
every occurrence of the placeholder in the `url` field and in every
`tiles` entry has been replaced by the supplied key (witnessed by a
decomposition into placeholder-free pieces), while the source ids, all
other fields, and all placeholder-free fields are unchanged.  The
dollar-pattern restriction is forced by the counterexample
`applyApiKey_dollar_key_not_substituted`: a key such as "$&" is expanded
by the replacement rules instead of being inserted literally. -/
theorem applyApiKey_replaces_every_occurrence (key : String) (hkey : key ≠ "")
    (hkc : dollarClean key.toList = true)
    (st : MapState) (doc : StyleDoc) (hdoc : st.styleDoc = some doc)
    (hdirty : ∃ p ∈ doc.sources, sourceDirty p.2) :
    ∃ docv : StyleDoc,
      applyApiKeyToSources (some key) (some st) =
        some { st with styleDoc := some docv,
                       setStyleCount := st.setStyleCount + 1 } ∧
      List.Forall₂ (fun p q : String × Source =>
        q.1 = p.1 ∧
        q.2.otherFields = p.2.otherFields ∧
        urlRewrite key p.2.url q.2.url ∧
        tilesRewrite key p.2.tiles q.2.tiles) doc.sources docv.sources := by
  have hany : ((doc.sources.map
      (fun p => (p.1, updateSource key p.2))).any (fun p => p.2.2)) = true := by
    rw [List.any_eq_true]
    obtain ⟨p, hmem, hdirt⟩ := hdirty
    refine ⟨(p.1, updateSource key p.2), List.mem_map_of_mem _ hmem, ?_⟩
    simp [updateSource_dirty key p.2 hdirt]
  refine ⟨⟨(doc.sources.map (fun p => (p.1, updateSource key p.2))).map
    (fun p => (p.1, p.2.1))⟩, ?_, ?_⟩
  · simp [applyApiKeyToSources, hkey, hdoc, hany]
  · show List.Forall₂ _ doc.sources ((doc.sources.map
      (fun p => (p.1, updateSource key p.2))).map (fun p => (p.1, p.2.1)))
    rw [List.map_map]
    exact updateSource_forall2 key hkc doc.sources

/-- Witness for C7: a concrete style document with several occurrences of
the placeholder across url and tiles fields, rewritten with one update. -/
theorem applyApiKey_replaces_every_occurrence_witness :
    ("k9" : String) ≠ "" ∧
    dollarClean ("k9" : String).toList = true ∧
    (∃ p ∈ (⟨[("gl", ⟨some "https://a.example/t.json?key=YOUR-API-KEY&b=YOUR-API-KEY",
        some ["https://t.example/YOUR-API-KEY/0.pbf", "https://clean.example/0.pbf"],
        [("type", "vector")]⟩)]⟩ : StyleDoc).sources, sourceDirty p.2) ∧
    (∃ docv : StyleDoc,
      applyApiKeyToSources (some "k9")
          (some ⟨some ⟨[("gl", ⟨some "https://a.example/t.json?key=YOUR-API-KEY&b=YOUR-API-KEY",
            some ["https://t.example/YOUR-API-KEY/0.pbf", "https://clean.example/0.pbf"],
            [("type", "vector")]⟩)]⟩, ⟨139, 35, 10, 0, 0⟩, 0⟩) =
        some { styleDoc := some docv, camera := ⟨139, 35, 10, 0, 0⟩,
               setStyleCount := 1 } ∧
      List.Forall₂ (fun p q : String × Source =>
        q.1 = p.1 ∧
        q.2.otherFields = p.2.otherFields ∧
        urlRewrite "k9" p.2.url q.2.url ∧
        tilesRewrite "k9" p.2.tiles q.2.tiles)
        (⟨[("gl", ⟨some "https://a.example/t.json?key=YOUR-API-KEY&b=YOUR-API-KEY",
          some ["https://t.example/YOUR-API-KEY/0.pbf", "https://clean.example/0.pbf"],
          [("type", "vector")]⟩)]⟩ : StyleDoc).sources docv.sources) := by
  have hdirt : ∃ p ∈ (⟨[("gl", ⟨some "https://a.example/t.json?key=YOUR-API-KEY&b=YOUR-API-KEY",
      some ["https://t.example/YOUR-API-KEY/0.pbf", "https://clean.example/0.pbf"],
      [("type", "vector")]⟩)]⟩ : StyleDoc).sources, sourceDirty p.2 := by
    refine ⟨_, List.mem_singleton.mpr rfl, Or.inl ?_⟩
    exact ⟨"https://a.example/t.json?key=YOUR-API-KEY&b=YOUR-API-KEY", rfl, by decide⟩
  exact ⟨by decide, by decide, hdirt,
    applyApiKey_replaces_every_occurrence "k9" (by decide) (by decide) _ _
      rfl hdirt⟩

/-- Counterexample to C7 as stated: with supplied key "$&" the JS
replacement expands the dollar pattern to the matched substring, so the
placeholder is re-inserted instead of the key: key injection runs one map
update but the installed url still carries the placeholder and is not the
literal key splice. -/
theorem applyApiKey_dollar_key_not_substituted :
    applyApiKeyToSources (some "$&")
        (some ⟨some ⟨[("g", ⟨some "https://x/YOUR-API-KEY/t", none, []⟩)]⟩,
          ⟨0, 0, 0, 0, 0⟩, 0⟩) =
      some ⟨some ⟨[("g", ⟨some "https://x/YOUR-API-KEY/t", none, []⟩)]⟩,
        ⟨0, 0, 0, 0, 0⟩, 1⟩ ∧
    jsReplaceAll "https://x/YOUR-API-KEY/t" placeholderToken "$&" =
      "https://x/YOUR-API-KEY/t" ∧
    jsReplaceAll "https://x/YOUR-API-KEY/t" placeholderToken "$&" ≠
      "https://x/$&/t" ∧
    jsIncludes "https://x/YOUR-API-KEY/t" placeholderToken = true := by
  refine ⟨rfl, rfl, by decide, by decide⟩

/-! ## Style-switch sequencer (embed.js, setStyle lines 355-453) -/

/-- The designated fallback style key the error handler compares the
requested style against (embed.js line 381). -/
def fallbackStyleKey : String := "geolonia/basic"

/-- Events one pending switch invocation can receive: the map's `error`
event, expiry of the load timer, the `style.load` event, or the
environment moving the camera while the new style loads. -/
inductive Ev where
  | errorEvt : Ev
  | timeoutEvt : Ev
  | styleLoadEvt : Ev
  | perturb : Camera → Ev
deriving DecidableEq, Repr

/-- State of one `setStyle` invocation: the closure flags
(`hasErrorOccurred`, the pending timer, which one-shot handlers are still
attached) together with the observable effects (camera, user-visible
messages, automatic follow-up switches scheduled, key-injection runs). -/
structure RunState where
  camera : Camera
  hasErrorOccurred : Bool
  timerActive : Bool
  errorAttached : Bool
  loadAttached : Bool
  transientMsgs : Nat
  terminalMsgs : Nat
  followUps : List String
  apiKeyRuns : Nat
deriving DecidableEq, Repr

/-- State when the invocation starts (embed.js lines 364-436): flags
clear, the 10-second timer armed, both one-shot handlers attached. -/
def initRun (cam : Camera) : RunState :=
  { camera := cam, hasErrorOccurred := false, timerActive := true,
    errorAttached := true, loadAttached := true, transientMsgs := 0,
    terminalMsgs := 0, followUps := [], apiKeyRuns := 0 }

/-- Body of `errorHandler` (embed.js lines 369-400): a repeat call is
ignored via `hasErrorOccurred`; the timer is cleared; when the requested
style is not the fallback key, show the transient message, detach both
handlers and schedule one follow-up switch to the fallback key; when the
requested style is the fallback key itself, show the terminal message
only. -/
def errorHandlerRun (requested : String) (st : RunState) : RunState :=
  if st.hasErrorOccurred then st
  else
    let st1 := { st with hasErrorOccurred := true, timerActive := false }
    if requested ≠ fallbackStyleKey then
      { st1 with
        transientMsgs := st1.transientMsgs + 1,
        errorAttached := false,
        loadAttached := false,
        followUps := st1.followUps ++ [fallbackStyleKey] }
    else { st1 with terminalMsgs := st1.terminalMsgs + 1 }

/-- Body of `styleLoadHandler` (embed.js lines 403-424): ignored after an
error was handled; otherwise clears the timer, detaches the error handler,
restores the captured camera and runs API-key injection. -/
def styleLoadHandlerRun (captured : Camera) (st : RunState) : RunState :=
  if st.hasErrorOccurred then st
  else
    { st with
      timerActive := false,
      errorAttached := false,
      camera := captured,
      apiKeyRuns := st.apiKeyRuns + 1 }

/-- One event delivery.  `map.once` removes a handler when it fires, so a
delivery with the handler already detached is a no-op; the timer body
(embed.js lines 427-432) invokes the error handler only while the timer is
still pending; `perturb` is the environment moving the camera. -/
def stepEv (requested : String) (captured : Camera) (st : RunState) :
    Ev → RunState
  | Ev.errorEvt =>
    if st.errorAttached then
      errorHandlerRun requested { st with errorAttached := false }
    else st
  | Ev.timeoutEvt =>
    if st.timerActive then
      errorHandlerRun requested { st with timerActive := false }
    else st
  | Ev.styleLoadEvt =>
    if st.loadAttached then
      styleLoadHandlerRun captured { st with loadAttached := false }
    else st
  | Ev.perturb c => { st with camera := c }

/-- A whole `setStyle(style)` invocation on a live map whose camera is
`cam` at capture time, observed under a sequence of event deliveries. -/
def setStyleRun (requested : String) (cam : Camera) (events : List Ev) :
    RunState :=
  events.foldl (stepEv requested cam) (initRun cam)

/-- Only camera perturbations: no delivery has reached the invocation yet. -/
def perturbOnly (events : List Ev) : Prop :=
  ∀ e ∈ events, ∃ c, e = Ev.perturb c

/-- One of the three deliveries that can settle the invocation. -/
def settlingEv (e : Ev) : Prop :=
  e = Ev.errorEvt ∨ e = Ev.timeoutEvt ∨ e = Ev.styleLoadEvt

/-- The observable outcome of an invocation: camera, transient and
terminal messages, scheduled follow-up switches, key-injection runs. -/
def observables (st : RunState) : Camera × Nat × Nat × List String × Nat :=
  (st.camera, st.transientMsgs, st.terminalMsgs, st.followUps, st.apiKeyRuns)

/-- A settled invocation: either the error path ran, or the success path
detached everything. -/
def settled (st : RunState) : Prop :=
  st.hasErrorOccurred = true ∨
  (st.errorAttached = false ∧ st.loadAttached = false ∧ st.timerActive = false)

def camera0 : Camera := ⟨0, 0, 0, 0, 0⟩

/-- The styles attempted along a failure chain in which every attempt
fails with an error event, following the follow-up switches the error
handler schedules. -/
def failureChain : Nat → String → List String
  | 0, s => [s]
  | n + 1, s =>
    s :: ((setStyleRun s camera0 [Ev.errorEvt]).followUps.flatMap
      (failureChain n))

lemma foldl_perturbOnly (requested : String) (captured : Camera) :
    ∀ (pre : List Ev) (st : RunState), perturbOnly pre →
      ∃ cam2, pre.foldl (stepEv requested captured) st =
        { st with camera := cam2 } := by
  intro pre
  induction pre with
  | nil => exact fun st _ => ⟨st.camera, rfl⟩
  | cons e pre ih =>
    intro st hp
    obtain ⟨c, rfl⟩ := hp e (List.mem_cons_self e pre)
    obtain ⟨cam2, h2⟩ := ih { st with camera := c }
      (fun x hx => hp x (List.mem_cons_of_mem _ hx))
    exact ⟨cam2, h2⟩

lemma stepEv_frozen (requested : String) (captured : Camera) (st : RunState)
    (h : st.hasErrorOccurred = true) (e : Ev) :
    (stepEv requested captured st e).hasErrorOccurred = true ∧
    (stepEv requested captured st e).transientMsgs = st.transientMsgs ∧
    (stepEv requested captured st e).terminalMsgs = st.terminalMsgs ∧
    (stepEv requested captured st e).followUps = st.followUps ∧
    (stepEv requested captured st e).apiKeyRuns = st.apiKeyRuns := by
  cases e with
  | errorEvt =>
    by_cases hA : st.errorAttached = true <;>
      simp [stepEv, errorHandlerRun, h, hA]
  | timeoutEvt =>
    by_cases hA : st.timerActive = true <;>
      simp [stepEv, errorHandlerRun, h, hA]
  | styleLoadEvt =>
    by_cases hA : st.loadAttached = true <;>
      simp [stepEv, styleLoadHandlerRun, h, hA]
  | perturb c => simp [stepEv, h]

lemma foldl_frozen (requested : String) (captured : Camera) :
    ∀ (events : List Ev) (st : RunState), st.hasErrorOccurred = true →
      (events.foldl (stepEv requested captured) st).transientMsgs =
        st.transientMsgs ∧
      (events.foldl (stepEv requested captured) st).terminalMsgs =
        st.terminalMsgs ∧
      (events.foldl (stepEv requested captured) st).followUps =
        st.followUps ∧
      (events.foldl (stepEv requested captured) st).apiKeyRuns =
        st.apiKeyRuns := by
  intro events
  induction events with
  | nil => exact fun st _ => ⟨rfl, rfl, rfl, rfl⟩
  | cons e events ih =>
    intro st h
    obtain ⟨h0, h1, h2, h3, h4⟩ := stepEv_frozen requested captured st h e
    obtain ⟨g1, g2, g3, g4⟩ := ih (stepEv requested captured st e) h0
    rw [List.foldl_cons]
    exact ⟨g1.trans h1, g2.trans h2, g3.trans h3, g4.trans h4⟩

lemma stepEv_settled (requested : String) (captured : Camera)
    (st : RunState) (h : settled st) (e : Ev) (he : settlingEv e) :
    observables (stepEv requested captured st e) = observables st ∧
    settled (stepEv requested captured st e) := by
  rcases h with h | ⟨hE, hL, hT⟩
  · rcases he with rfl | rfl | rfl
    · by_cases hA : st.errorAttached = true <;>
        simp [stepEv, errorHandlerRun, observables, settled, h, hA]
    · by_cases hA : st.timerActive = true <;>
        simp [stepEv, errorHandlerRun, observables, settled, h, hA]
    · by_cases hA : st.loadAttached = true <;>
        simp [stepEv, styleLoadHandlerRun, observables, settled, h, hA]
  · rcases he with rfl | rfl | rfl <;>
      simp [stepEv, observables, settled, hE, hL, hT]

lemma foldl_settled (requested : String) (captured : Camera) :
    ∀ (events : List Ev) (st : RunState), settled st →
      (∀ x ∈ events, settlingEv x) →
      observables (events.foldl (stepEv requested captured) st) =
        observables st := by
  intro events
  induction events with
  | nil => exact fun st _ _ => rfl
  | cons e events ih =>
    intro st h hall
    obtain ⟨h1, h2⟩ := stepEv_settled requested captured st h e
      (hall e (List.mem_cons_self e events))
    rw [List.foldl_cons]
    exact (ih _ h2 (fun x hx => hall x (List.mem_cons_of_mem _ hx))).trans h1

lemma settled_after_first (requested : String) (captured : Camera)
    (cam2 : Camera) (e : Ev) (he : settlingEv e) :
    settled (stepEv requested captured (initRun cam2) e) := by
  rcases he with rfl | rfl | rfl
  · simp only [stepEv, initRun]
    rw [if_pos trivial, errorHandlerRun]
    split
    · simp_all
    · split <;> simp [settled]
  · simp only [stepEv, initRun]
    rw [if_pos trivial, errorHandlerRun]
    split
    · simp_all
    · split <;> simp [settled]
  · simp only [stepEv, initRun]
    rw [if_pos trivial, styleLoadHandlerRun]
    split
    · simp_all
    · simp [settled]

lemma followUps_fail_fb :
    (setStyleRun fallbackStyleKey camera0 [Ev.errorEvt]).followUps = [] := by
  rfl

lemma followUps_fail_other (s : String) (hs : s ≠ fallbackStyleKey) :
    (setStyleRun s camera0 [Ev.errorEvt]).followUps = [fallbackStyleKey] := by
  simp [setStyleRun, stepEv, errorHandlerRun, initRun, hs]

lemma failureChain_count :
    ∀ n s, (failureChain n s).count fallbackStyleKey ≤ 1 := by
  intro n
  induction n with
  | zero =>
    intro s
    have hlen : (failureChain 0 s).length = 1 := by simp [failureChain]
    exact (List.count_le_length _ _).trans (le_of_eq hlen)
  | succ n ih =>
    intro s
    by_cases hs : s = fallbackStyleKey
    · subst hs
      rw [failureChain, followUps_fail_fb]
      simp [List.count_cons]
    · rw [failureChain, followUps_fail_other s hs]
      have hflat : ([fallbackStyleKey].flatMap (failureChain n)) =
          failureChain n fallbackStyleKey := by simp
      rw [hflat, List.count_cons_of_ne (Ne.symm hs)]
      exact ih fallbackStyleKey

/-- C1: a switch requesting the fallback style whose load fails (error
event or timeout) schedules zero automatic follow-up switches and shows
exactly one terminal message, whatever is delivered afterwards; and along
any failure chain the fallback style is attempted at most once, so the
automatic-retry recursion depth is at most 1. -/
theorem setStyle_fallback_failure_terminal :
    (∀ (cam : Camera) (pre rest : List Ev) (e : Ev), perturbOnly pre →
      (e = Ev.errorEvt ∨ e = Ev.timeoutEvt) →
      (setStyleRun fallbackStyleKey cam (pre ++ e :: rest)).followUps = [] ∧
      (setStyleRun fallbackStyleKey cam (pre ++ e :: rest)).terminalMsgs = 1 ∧
      (setStyleRun fallbackStyleKey cam (pre ++ e :: rest)).transientMsgs = 0) ∧
    (∀ (n : Nat) (s : String),
      (failureChain n s).count fallbackStyleKey ≤ 1) := by
  constructor
  · intro cam pre rest e hpre he
    obtain ⟨cam2, hp⟩ :=
      foldl_perturbOnly fallbackStyleKey cam pre (initRun cam) hpre
    rw [setStyleRun, List.foldl_append, hp, List.foldl_cons]
    have hfacts :
        (stepEv fallbackStyleKey cam
          { initRun cam with camera := cam2 } e).hasErrorOccurred = true ∧
        (stepEv fallbackStyleKey cam
          { initRun cam with camera := cam2 } e).followUps = [] ∧
        (stepEv fallbackStyleKey cam
          { initRun cam with camera := cam2 } e).terminalMsgs = 1 ∧
        (stepEv fallbackStyleKey cam
          { initRun cam with camera := cam2 } e).transientMsgs = 0 := by
      rcases he with rfl | rfl <;>
        simp [stepEv, errorHandlerRun, initRun]
    obtain ⟨hE, hF, hT, htr⟩ := hfacts
    obtain ⟨g1, g2, g3, g4⟩ := foldl_frozen fallbackStyleKey cam rest _ hE
    exact ⟨g3.trans hF, g2.trans hT, g1.trans htr⟩
  · exact failureChain_count

/-- Witness for C1: an immediate error on a switch to the fallback style. -/
theorem setStyle_fallback_failure_terminal_witness :
    perturbOnly [] ∧
    (setStyleRun fallbackStyleKey camera0 [Ev.errorEvt]).followUps = [] ∧
    (setStyleRun fallbackStyleKey camera0 [Ev.errorEvt]).terminalMsgs = 1 ∧
    (setStyleRun fallbackStyleKey camera0 [Ev.errorEvt]).transientMsgs = 0 := by
  have h := setStyle_fallback_failure_terminal.1 camera0 [] [] Ev.errorEvt
    (fun e he => absurd he (List.not_mem_nil e)) (Or.inl rfl)
  exact ⟨fun e he => absurd he (List.not_mem_nil e), h.1, h.2.1, h.2.2⟩

/-- C2: a switch requesting a non-fallback style whose load fails — by an
error event or by expiry of the timer, the two producing identical runs —
schedules exactly one automatic follow-up switch, targeting the fallback
style key, and shows exactly one transient message. -/
theorem setStyle_nonfallback_failure_one_fallback :
    (∀ (s : String) (cam : Camera) (pre rest : List Ev) (e : Ev),
      s ≠ fallbackStyleKey → perturbOnly pre →
      (e = Ev.errorEvt ∨ e = Ev.timeoutEvt) →
      (setStyleRun s cam (pre ++ e :: rest)).followUps = [fallbackStyleKey] ∧
      (setStyleRun s cam (pre ++ e :: rest)).transientMsgs = 1 ∧
      (setStyleRun s cam (pre ++ e :: rest)).terminalMsgs = 0) ∧
    (∀ (s : String) (cam : Camera) (pre rest : List Ev),
      s ≠ fallbackStyleKey → perturbOnly pre →
      setStyleRun s cam (pre ++ Ev.errorEvt :: rest) =
        setStyleRun s cam (pre ++ Ev.timeoutEvt :: rest)) := by
  constructor
  · intro s cam pre rest e hs hpre he
    obtain ⟨cam2, hp⟩ := foldl_perturbOnly s cam pre (initRun cam) hpre
    rw [setStyleRun, List.foldl_append, hp, List.foldl_cons]
    have hfacts :
        (stepEv s cam
          { initRun cam with camera := cam2 } e).hasErrorOccurred = true ∧
        (stepEv s cam
          { initRun cam with camera := cam2 } e).followUps =
            [fallbackStyleKey] ∧
        (stepEv s cam
          { initRun cam with camera := cam2 } e).transientMsgs = 1 ∧
        (stepEv s cam
          { initRun cam with camera := cam2 } e).terminalMsgs = 0 := by
      rcases he with rfl | rfl <;>
        simp [stepEv, errorHandlerRun, initRun, hs]
    obtain ⟨hE, hF, htr, hT⟩ := hfacts
    obtain ⟨g1, g2, g3, g4⟩ := foldl_frozen s cam rest _ hE
    exact ⟨g3.trans hF, g1.trans htr, g2.trans hT⟩
  · intro s cam pre rest hs hpre
    obtain ⟨cam2, hp⟩ := foldl_perturbOnly s cam pre (initRun cam) hpre
    rw [setStyleRun, List.foldl_append, hp, setStyleRun, List.foldl_append,
      hp, List.foldl_cons, List.foldl_cons]
    congr 1
    simp [stepEv, errorHandlerRun, initRun, hs]

/-- Witness for C2: an immediate timeout on a switch to a non-fallback
style, and the error/timeout runs coincide. -/
theorem setStyle_nonfallback_failure_one_fallback_witness :
    ("geolonia/midnight" : String) ≠ fallbackStyleKey ∧
    (setStyleRun "geolonia/midnight" camera0 [Ev.timeoutEvt]).followUps =
      [fallbackStyleKey] ∧
    (setStyleRun "geolonia/midnight" camera0 [Ev.timeoutEvt]).transientMsgs = 1 ∧
    (setStyleRun "geolonia/midnight" camera0 [Ev.timeoutEvt]).terminalMsgs = 0 ∧
    setStyleRun "geolonia/midnight" camera0 [Ev.errorEvt] =
      setStyleRun "geolonia/midnight" camera0 [Ev.timeoutEvt] := by
  have h := setStyle_nonfallback_failure_one_fallback.1 "geolonia/midnight"
    camera0 [] [] Ev.timeoutEvt (by decide)
    (fun e he => absurd he (List.not_mem_nil e)) (Or.inr rfl)
  have h2 := setStyle_nonfallback_failure_one_fallback.2 "geolonia/midnight"
    camera0 [] [] (by decide) (fun e he => absurd he (List.not_mem_nil e))
  exact ⟨by decide, h.1, h.2.1, h.2.2, h2⟩

/-- C3: within one invocation the error event, the timeout and the
style-loaded event are mutually exclusive: whichever is delivered first
settles the invocation, and every later delivery of any of the three is
ignored — the observable outcome is that of the first delivery alone. -/
theorem setStyle_first_delivery_wins (requested : String) (cam : Camera)
    (pre : List Ev) (e : Ev) (rest : List Ev)
    (hpre : perturbOnly pre) (he : settlingEv e)
    (hrest : ∀ x ∈ rest, settlingEv x) :
    observables (setStyleRun requested cam (pre ++ e :: rest)) =
      observables (setStyleRun requested cam (pre ++ [e])) := by
  obtain ⟨cam2, hp⟩ := foldl_perturbOnly requested cam pre (initRun cam) hpre
  rw [setStyleRun, List.foldl_append, hp, setStyleRun, List.foldl_append, hp,
    List.foldl_cons, List.foldl_cons, List.foldl_nil]
  exact foldl_settled requested cam rest _
    (settled_after_first requested cam cam2 e he) hrest

/-- Witness for C3: an error settles the invocation and a late
style-loaded delivery is ignored. -/
theorem setStyle_first_delivery_wins_witness :
    observables (setStyleRun "geolonia/midnight" camera0
        [Ev.errorEvt, Ev.styleLoadEvt]) =
      observables (setStyleRun "geolonia/midnight" camera0 [Ev.errorEvt]) :=
  setStyle_first_delivery_wins "geolonia/midnight" camera0 [] Ev.errorEvt
    [Ev.styleLoadEvt] (fun e he => absurd he (List.not_mem_nil e))
    (Or.inl rfl)
    (fun x hx => by
      have hx2 : x = Ev.styleLoadEvt := List.mem_singleton.mp hx
      subst hx2
      exact Or.inr (Or.inr rfl))

/-- C4: a switch that settles by success (the style-loaded event fires
before any error or timeout) restores the captured camera — center, zoom,
bearing and pitch — exactly, shows no message, schedules no follow-up
switch, and runs the API-key injection step once. -/
theorem setStyle_success_restores_camera (requested : String) (cam : Camera)
    (pre : List Ev) (hpre : perturbOnly pre) :
    (setStyleRun requested cam (pre ++ [Ev.styleLoadEvt])).camera = cam ∧
    (setStyleRun requested cam (pre ++ [Ev.styleLoadEvt])).transientMsgs = 0 ∧
    (setStyleRun requested cam (pre ++ [Ev.styleLoadEvt])).terminalMsgs = 0 ∧
    (setStyleRun requested cam (pre ++ [Ev.styleLoadEvt])).followUps = [] ∧
    (setStyleRun requested cam (pre ++ [Ev.styleLoadEvt])).apiKeyRuns = 1 := by
  obtain ⟨cam2, hp⟩ := foldl_perturbOnly requested cam pre (initRun cam) hpre
  rw [setStyleRun, List.foldl_append, hp]
  simp [stepEv, styleLoadHandlerRun, initRun]

/-- Witness for C4: the camera drifts during the load and is restored on
success. -/
theorem setStyle_success_restores_camera_witness :
    perturbOnly [Ev.perturb ⟨1, 2, 3, 4, 5⟩] ∧
    (setStyleRun "geolonia/notebook" camera0
      [Ev.perturb ⟨1, 2, 3, 4, 5⟩, Ev.styleLoadEvt]).camera = camera0 ∧
    (setStyleRun "geolonia/notebook" camera0
      [Ev.perturb ⟨1, 2, 3, 4, 5⟩, Ev.styleLoadEvt]).apiKeyRuns = 1 := by
  have hpre : perturbOnly [Ev.perturb ⟨1, 2, 3, 4, 5⟩] :=
    fun e he => ⟨⟨1, 2, 3, 4, 5⟩, List.mem_singleton.mp he⟩
  have h := setStyle_success_restores_camera "geolonia/notebook" camera0
    [Ev.perturb ⟨1, 2, 3, 4, 5⟩] hpre
  exact ⟨hpre, h.1, h.2.2.2.2⟩

end MyEmbed
